import Mathlib

/-!
Shallow embedding of the FASTA record reader of `src/fasta.rs`
(crate `gx-sequence-utils-rs`).

Strings are modelled as `List Char`; the buffered input source of the
reader is modelled as the list of characters still unread, and
`readLine` models `std::io::BufRead::read_line` (which consumes up to
and including the next `'\n'`, or everything left at end of input).
In this pure model a read from the underlying source never fails, so
the only reader error is the `MalformedInput` error that
`FastaRead::read` itself constructs; it is modelled by `ReadError`.
-/

namespace GxFasta

/-- Rust `char::is_whitespace`: the Unicode `White_Space` property. -/
def isWhitespace (c : Char) : Bool :=
  c.toNat = 0x09 || c.toNat = 0x0A || c.toNat = 0x0B || c.toNat = 0x0C || c.toNat = 0x0D ||
  c.toNat = 0x20 || c.toNat = 0x85 || c.toNat = 0xA0 || c.toNat = 0x1680 ||
  (0x2000 ≤ c.toNat && c.toNat ≤ 0x200A) ||
  c.toNat = 0x2028 || c.toNat = 0x2029 || c.toNat = 0x202F || c.toNat = 0x205F ||
  c.toNat = 0x3000

/-- Rust `str::trim_end`: remove all trailing whitespace characters. -/
def trimEnd (s : List Char) : List Char :=
  (s.reverse.dropWhile isWhitespace).reverse

/-- Model of `std::io::BufRead::read_line`: returns the consumed line
(with its `'\n'` terminator included, when one is present before end of
input) and the remaining stream.  At end of input the line is empty. -/
def readLine : List Char → List Char × List Char
  | [] => ([], [])
  | c :: cs =>
    if c = '\n' then ([c], cs)
    else
      let p := readLine cs
      (c :: p.1, p.2)

/-- Rust `str::splitn(2, char::is_whitespace)`, with the two fields
extracted as in `FastaRead::read`: the first field is everything before
the first whitespace character, the second (when a whitespace character
exists) is everything after that single character. -/
def splitn2 : List Char → List Char × Option (List Char)
  | [] => ([], none)
  | c :: cs =>
    if isWhitespace c then ([], some cs)
    else
      let p := splitn2 cs
      (c :: p.1, p.2)

/-- Rust `str::is_ascii` (for a UTF-8 string: every scalar value is at
most `0x7F`). -/
def isAscii (s : List Char) : Bool := s.all fun c => c.toNat ≤ 0x7F

/-- The record type `FastaSequence` of `src/fasta.rs`. -/
structure FastaSequence where
  id : List Char
  desc : Option (List Char)
  seq : List Char
  deriving DecidableEq

/-- `FastaSequence::new`. -/
def FastaSequence.new : FastaSequence := ⟨[], none, []⟩

/-- `FastaSequence::is_empty`. -/
def FastaSequence.isEmpty (r : FastaSequence) : Bool :=
  r.id.isEmpty && r.desc.isNone && r.seq.isEmpty

/-- The two error messages `FastaSequence::check` can return. -/
inductive CheckError where
  | missingId
  | nonAsciiSequence
  deriving DecidableEq

/-- `FastaSequence::check`. -/
def FastaSequence.check (r : FastaSequence) : Except CheckError Unit :=
  if r.id.isEmpty then .error .missingId
  else if !isAscii r.seq then .error .nonAsciiSequence
  else .ok ()

/-- `Display::fmt for FastaSequence`: the header is `id` or `id ++ " " ++ desc`
(via `format!("{} {}", ...)`), and the output is `>` ++ header ++ `"\n"`
++ seq ++ `"\n"` (via `write!(f, ">{}\n{}\n", ...)`). -/
def FastaSequence.fmt (r : FastaSequence) : List Char :=
  let header :=
    match r.desc with
    | some d => r.id ++ ' ' :: d
    | none => r.id
  '>' :: header ++ '\n' :: r.seq ++ ['\n']

/-- The error produced by `FastaRead::read` when a record does not start
with `>` (an `io::Error` with kind `Other` in the source). -/
inductive ReadError where
  | malformedInput
  deriving DecidableEq

/-- The reader state `FastaReader` of `src/fasta.rs`: the remaining
input of the underlying buffered reader, the sticky error flag, and the
one-line lookahead cache. -/
structure FastaReader where
  reader : List Char
  error_has_occured : Bool
  line_cache : List Char
  deriving DecidableEq

/-- `FastaReader::new`. -/
def FastaReader.new (input : List Char) : FastaReader :=
  ⟨input, false, []⟩

/-- The sequence-line loop of `FastaRead::read`, with explicit fuel so
that the definition is structurally recursive (the fuel is immaterial
as soon as it exceeds the length of the input; see
`readSeqLinesFuel_congr`).  Arguments: fuel, remaining input,
accumulated sequence.  Returns the final sequence, the final line
cache, and the remaining input. -/
def readSeqLinesFuel : Nat → List Char → List Char → List Char × List Char × List Char
  | 0, input, seq => (seq, [], input)
  | fuel + 1, input, seq =>
    let p := readLine input
    if p.1 = [] then (seq, [], p.2)
    else if p.1.head? = some '>' then (seq, p.1, p.2)
    else readSeqLinesFuel fuel p.2 (seq ++ trimEnd p.1)

/-- The sequence-line loop of `FastaRead::read`: repeatedly read a
line; stop with an empty cache at end of input, stop keeping the line
as the new cache when it starts with `>`, and otherwise append the
line, trailing whitespace removed, to the sequence. -/
def readSeqLines (input seq : List Char) : List Char × List Char × List Char :=
  readSeqLinesFuel (input.length + 1) input seq

/-- The part of `FastaRead::read` that runs once the line cache is
known to be non-empty: the `starts_with('>')` check, the header split,
and the sequence-line loop.  Returns the result, the record, the new
line cache and the new remaining input. -/
def readCore (cache reader : List Char) :
    Except ReadError Unit × FastaSequence × List Char × List Char :=
  if cache.head? = some '>' then
    let hd := splitn2 (trimEnd (cache.drop 1))
    let p := readSeqLines reader []
    (.ok (), ⟨hd.1, hd.2, p.1⟩, p.2.1, p.2.2)
  else
    (.error .malformedInput, FastaSequence.new, cache, reader)

/-- `FastaRead::read` for `FastaReader`: clear the record (the returned
record plays the role of the `&mut` argument), fill the cache if it is
empty, return an empty record at end of input, and otherwise parse one
record via `readCore`.  The sticky error flag is not touched. -/
def FastaReader.read (st : FastaReader) :
    Except ReadError Unit × FastaSequence × FastaReader :=
  if st.line_cache = [] then
    let p := readLine st.reader
    if p.1 = [] then (.ok (), FastaSequence.new, ⟨p.2, st.error_has_occured, p.1⟩)
    else
      let q := readCore p.1 p.2
      (q.1, q.2.1, ⟨q.2.2.2, st.error_has_occured, q.2.2.1⟩)
  else
    let q := readCore st.line_cache st.reader
    (q.1, q.2.1, ⟨q.2.2.2, st.error_has_occured, q.2.2.1⟩)

/-- `Iterator::next for FastaReader`: `None` once the sticky flag is
set; otherwise run `read`, map an empty record to `None`, a non-empty
record to `Some(Ok(..))`, and an error to `Some(Err(..))` while setting
the sticky flag. -/
def FastaReader.next (st : FastaReader) :
    Option (Except ReadError FastaSequence) × FastaReader :=
  if st.error_has_occured then (none, st)
  else
    let p := st.read
    match p.1 with
    | .ok () => if p.2.1.isEmpty then (none, p.2.2) else (some (.ok p.2.1), p.2.2)
    | .error e => (some (.error e), { p.2.2 with error_has_occured := true })

/-- The reader state after `n` calls of `next`. -/
def FastaReader.iterate (st : FastaReader) : Nat → FastaReader
  | 0 => st
  | n + 1 => FastaReader.iterate (st.next).2 n

/-- The item produced by the `(n+1)`-st call of `next` (0-indexed). -/
def FastaReader.itemAt (st : FastaReader) (n : Nat) :
    Option (Except ReadError FastaSequence) :=
  ((st.iterate n).next).1

/-! ### Basic lemmas about `trimEnd` -/

theorem trimEnd_eq_rdropWhile (s : List Char) :
    trimEnd s = s.rdropWhile isWhitespace := rfl

theorem trimEnd_nil : trimEnd [] = [] := rfl

theorem trimEnd_concat_ws {c : Char} (h : isWhitespace c = true) (s : List Char) :
    trimEnd (s ++ [c]) = trimEnd s := by
  rw [trimEnd_eq_rdropWhile, trimEnd_eq_rdropWhile]
  exact List.rdropWhile_concat_pos _ _ _ h

theorem trimEnd_concat_not_ws {c : Char} (h : isWhitespace c = false) (s : List Char) :
    trimEnd (s ++ [c]) = s ++ [c] := by
  rw [trimEnd_eq_rdropWhile]
  exact List.rdropWhile_concat_neg _ _ _ (by simp [h])

theorem trimEnd_prefixOf (s : List Char) : trimEnd s <+: s :=
  List.rdropWhile_prefix _ _

theorem trimEnd_length (s : List Char) : (trimEnd s).length ≤ s.length :=
  (trimEnd_prefixOf s).length_le

theorem mem_of_mem_trimEnd {c : Char} {s : List Char} (h : c ∈ trimEnd s) : c ∈ s :=
  (trimEnd_prefixOf s).subset h

theorem trimEnd_idem (s : List Char) : trimEnd (trimEnd s) = trimEnd s := by
  rw [trimEnd_eq_rdropWhile, trimEnd_eq_rdropWhile]
  exact List.rdropWhile_idempotent _ _

theorem trimEnd_eq_nil {s : List Char} (h : ∀ c ∈ s, isWhitespace c = true) :
    trimEnd s = [] := by
  rw [trimEnd_eq_rdropWhile]
  exact List.rdropWhile_eq_nil_iff.mpr (by simpa using h)

/-- A list that is fixed by `trimEnd` stays fixed when anything is
prepended, provided it is non-empty. -/
theorem trimEnd_append_of_fixed {b : List Char} (hb : trimEnd b = b) (hne : b ≠ [])
    (a : List Char) : trimEnd (a ++ b) = a ++ b := by
  rcases List.eq_nil_or_concat' b with rfl | ⟨b₀, c, rfl⟩
  · exact absurd rfl hne
  · rcases h : isWhitespace c with _ | _
    · rw [← List.append_assoc]
      exact trimEnd_concat_not_ws h _
    · exfalso
      rw [trimEnd_concat_ws h] at hb
      have h1 := trimEnd_length b₀
      have hlen := congrArg List.length hb
      simp at hlen
      omega

/-- A suffix after a whitespace character of a `trimEnd`-fixed list is
non-empty and itself `trimEnd`-fixed. -/
theorem suffix_of_trimEnd_fixed {a d : List Char} {w : Char}
    (hw : isWhitespace w = true) (ht : trimEnd (a ++ w :: d) = a ++ w :: d) :
    d ≠ [] ∧ trimEnd d = d := by
  rcases List.eq_nil_or_concat' d with rfl | ⟨d₀, c, rfl⟩
  · exfalso
    have h1 : a ++ [w] = trimEnd (a ++ [w]) := ht.symm
    rw [trimEnd_concat_ws hw] at h1
    have h3 := trimEnd_length a
    have hlen := congrArg List.length h1
    simp at hlen
    omega
  · rcases h : isWhitespace c with _ | _
    · exact ⟨by simp, trimEnd_concat_not_ws h _⟩
    · exfalso
      have h2 : a ++ w :: (d₀ ++ [c]) = (a ++ w :: d₀) ++ [c] := by simp
      rw [h2, trimEnd_concat_ws h] at ht
      have h3 := trimEnd_length (a ++ w :: d₀)
      have hlen := congrArg List.length ht
      simp at hlen h3
      omega

/-! ### Basic lemmas about `readLine` -/

theorem readLine_nil : readLine [] = ([], []) := rfl

theorem readLine_fst_eq_nil_iff {s : List Char} : (readLine s).1 = [] ↔ s = [] := by
  cases s with
  | nil => simp [readLine]
  | cons c cs =>
    constructor
    · intro h
      by_cases hc : c = '\n' <;> simp [readLine, hc] at h
    · intro h
      exact absurd h (by simp)

theorem readLine_snd_length {s : List Char} (h : s ≠ []) :
    (readLine s).2.length < s.length := by
  induction s with
  | nil => exact absurd rfl h
  | cons c cs ih =>
    by_cases hc : c = '\n'
    · simp [readLine, hc]
    · simp only [readLine, if_neg hc]
      rcases List.eq_nil_or_concat cs with rfl | ⟨_, _, rfl⟩
      · simp [readLine]
      · have := ih (by simp)
        simpa using Nat.lt_succ_of_lt this

theorem readLine_append {l : List Char} (h : '\n' ∉ l) (rest : List Char) :
    readLine (l ++ '\n' :: rest) = (l ++ ['\n'], rest) := by
  induction l with
  | nil => simp [readLine]
  | cons c cs ih =>
    have hc : c ≠ '\n' := fun hc => h (by simp [hc])
    have hcs : '\n' ∉ cs := fun hm => h (by simp [hm])
    simp [readLine, hc, ih hcs]

theorem readLine_no_newline {s : List Char} (h : '\n' ∉ s) : readLine s = (s, []) := by
  induction s with
  | nil => rfl
  | cons c cs ih =>
    have hc : c ≠ '\n' := fun hc => h (by simp [hc])
    have hcs : '\n' ∉ cs := fun hm => h (by simp [hm])
    simp [readLine, hc, ih hcs]

theorem readLine_fst_head? (s : List Char) : (readLine s).1.head? = s.head? := by
  cases s with
  | nil => rfl
  | cons c cs => by_cases hc : c = '\n' <;> simp [readLine, hc]

/-- The line returned by `readLine` contains no `'\n'` before its last
character: it is a single line. -/
theorem readLine_fst_dropLast (s : List Char) : '\n' ∉ (readLine s).1.dropLast := by
  induction s with
  | nil => simp [readLine]
  | cons c cs ih =>
    by_cases hc : c = '\n'
    · simp [readLine, hc]
    · simp only [readLine, if_neg hc]
      rcases List.eq_nil_or_concat' (readLine cs).1 with hl | ⟨l₀, x, hl⟩
      · rw [hl]
        simp
      · rw [hl] at ih ⊢
        rw [List.dropLast_concat] at ih
        have h2 : c :: (l₀ ++ [x]) = (c :: l₀) ++ [x] := by simp
        rw [h2, List.dropLast_concat]
        simp only [List.mem_cons, not_or]
        exact ⟨fun h => hc h.symm, ih⟩

/-! ### Basic lemmas about `splitn2` -/

theorem splitn2_of_no_ws {s : List Char} (h : ∀ c ∈ s, isWhitespace c = false) :
    splitn2 s = (s, none) := by
  induction s with
  | nil => rfl
  | cons c cs ih =>
    have hc := h c (by simp)
    simp [splitn2, hc, ih fun x hx => h x (by simp [hx])]

theorem splitn2_append {a : List Char} {w : Char} (ha : ∀ c ∈ a, isWhitespace c = false)
    (hw : isWhitespace w = true) (d : List Char) :
    splitn2 (a ++ w :: d) = (a, some d) := by
  induction a with
  | nil => simp [splitn2, hw]
  | cons c cs ih =>
    have hc := ha c (by simp)
    simp [splitn2, hc, ih fun x hx => ha x (by simp [hx])]

theorem splitn2_fst_no_ws (s : List Char) :
    ∀ c ∈ (splitn2 s).1, isWhitespace c = false := by
  induction s with
  | nil => simp [splitn2]
  | cons c cs ih =>
    rcases hc : isWhitespace c with _ | _
    · intro x hx
      simp only [splitn2, hc] at hx
      simp at hx
      rcases hx with rfl | hx
      · exact hc
      · exact ih x hx
    · simp [splitn2, hc]

theorem splitn2_some_eq {s a d : List Char} (h : splitn2 s = (a, some d)) :
    ∃ w, isWhitespace w = true ∧ s = a ++ w :: d := by
  induction s generalizing a with
  | nil => simp [splitn2] at h
  | cons c cs ih =>
    rcases hc : isWhitespace c with _ | _
    · rcases hp : splitn2 cs with ⟨a1, o⟩
      simp only [splitn2, hc] at h
      rw [hp] at h
      simp at h
      rcases h with ⟨rfl, rfl⟩
      obtain ⟨w, hw, hcs⟩ := ih hp
      exact ⟨w, hw, by simp [hcs]⟩
    · simp only [splitn2, hc] at h
      simp at h
      rcases h with ⟨rfl, rfl⟩
      exact ⟨c, hc, by simp⟩

/-- Closed form of `splitn2`: the first field is the longest
whitespace-free prefix, the second is everything after the first
whitespace character when one exists. -/
theorem splitn2_eq_takeWhile_drop (s : List Char) :
    splitn2 s =
      (s.takeWhile (fun c => !isWhitespace c),
       if s.any isWhitespace then
         some (s.drop ((s.takeWhile fun c => !isWhitespace c).length + 1))
       else none) := by
  induction s with
  | nil => rfl
  | cons c cs ih =>
    rcases hc : isWhitespace c with _ | _
    · simp [splitn2, List.takeWhile_cons, hc, ih]
    · simp [splitn2, List.takeWhile_cons, hc]

/-! ### The loop of `read`: fuel elimination -/

theorem readSeqLinesFuel_congr :
    ∀ f g input seq, input.length < f → input.length < g →
      readSeqLinesFuel f input seq = readSeqLinesFuel g input seq := by
  intro f
  induction f with
  | zero => exact fun g input seq hf _ => absurd hf (by omega)
  | succ f ih =>
    intro g input seq hf hg
    cases g with
    | zero => exact absurd hg (by omega)
    | succ g =>
      simp only [readSeqLinesFuel]
      by_cases h1 : (readLine input).1 = []
      · simp [h1]
      · by_cases h2 : (readLine input).1.head? = some '>'
        · simp [h1, h2]
        · simp only [h1, h2, if_false, ite_false]
          have hne : input ≠ [] := fun h => h1 (by rw [h]; rfl)
          have hlt := readLine_snd_length hne
          exact ih _ _ _ (by omega) (by omega)

/-- One-step unfolding of the sequence-line loop, with the fuel gone. -/
theorem readSeqLines_unfold (input seq : List Char) :
    readSeqLines input seq =
      if (readLine input).1 = [] then (seq, [], (readLine input).2)
      else if (readLine input).1.head? = some '>' then
        (seq, (readLine input).1, (readLine input).2)
      else readSeqLines (readLine input).2 (seq ++ trimEnd (readLine input).1) := by
  rw [readSeqLines]
  simp only [readSeqLinesFuel]
  by_cases h1 : (readLine input).1 = []
  · simp [h1]
  · by_cases h2 : (readLine input).1.head? = some '>'
    · simp [h1, h2]
    · simp only [h1, h2, if_false, ite_false]
      have hne : input ≠ [] := fun h => h1 (by rw [h]; rfl)
      have hlt := readLine_snd_length hne
      exact readSeqLinesFuel_congr _ _ _ _ (by omega) (by omega)

/-! ### Well-formed FASTA inputs

A well-formed input with `N` records is described by a list of `N`
`RecSpec`s and rendered to text by `render`: each record contributes a
header line `>id[ desc]\n` followed by its sequence lines, each
terminated by `'\n'`.  `WfRec` collects the conditions under which this
text is a well-formed FASTA file: the id is a non-empty whitespace-free
token, the description (when present) is non-empty with no trailing
whitespace and no embedded newline, and every sequence line is
newline-free and does not start with the record marker `>`.  Sequence
lines may be empty (blank lines) and may carry trailing whitespace. -/

structure RecSpec where
  id : List Char
  desc : Option (List Char)
  seqLines : List (List Char)
  deriving DecidableEq

def headerContent (r : RecSpec) : List Char :=
  r.id ++ (match r.desc with | some d => ' ' :: d | none => [])

def headerLine (r : RecSpec) : List Char := '>' :: headerContent r ++ ['\n']

def linesText : List (List Char) → List Char
  | [] => []
  | l :: ls => l ++ '\n' :: linesText ls

def bodyText (r : RecSpec) : List Char := linesText r.seqLines

def render : List RecSpec → List Char
  | [] => []
  | r :: rs => headerLine r ++ (bodyText r ++ render rs)

def joinTrimEnd : List (List Char) → List Char
  | [] => []
  | l :: ls => trimEnd l ++ joinTrimEnd ls

/-- The record that the reader is expected to produce from a `RecSpec`. -/
def toRec (r : RecSpec) : FastaSequence := ⟨r.id, r.desc, joinTrimEnd r.seqLines⟩

def WfLine (l : List Char) : Prop := '\n' ∉ l ∧ l.head? ≠ some '>'

instance (l : List Char) : Decidable (WfLine l) := by
  unfold WfLine; infer_instance

def DescOk : Option (List Char) → Prop
  | none => True
  | some d => d ≠ [] ∧ trimEnd d = d ∧ '\n' ∉ d

instance : (o : Option (List Char)) → Decidable (DescOk o)
  | none => .isTrue trivial
  | some _ => inferInstanceAs (Decidable (_ ∧ _ ∧ _))

/-- The conditions under which the rendering of a `RecSpec` parses back
to `toRec` of it, except for the requirement that the record be
non-empty. -/
def WfRecW (r : RecSpec) : Prop :=
  (∀ c ∈ r.id, isWhitespace c = false) ∧ DescOk r.desc ∧
    ∀ l ∈ r.seqLines, WfLine l

instance (r : RecSpec) : Decidable (WfRecW r) := by
  unfold WfRecW; infer_instance

def WfRec (r : RecSpec) : Prop := r.id ≠ [] ∧ WfRecW r

instance (r : RecSpec) : Decidable (WfRec r) := by
  unfold WfRec; infer_instance

theorem ws_newline : isWhitespace '\n' = true := by decide

theorem ws_space : isWhitespace ' ' = true := by decide

theorem trimEnd_of_no_ws {s : List Char} (h : ∀ c ∈ s, isWhitespace c = false) :
    trimEnd s = s := by
  rw [trimEnd_eq_rdropWhile]
  rw [List.rdropWhile_eq_self_iff]
  intro hl
  simp [h _ (List.getLast_mem hl)]

theorem headerContent_no_newline {r : RecSpec} (h : WfRecW r) :
    '\n' ∉ headerContent r := by
  obtain ⟨hid, hdesc, -⟩ := h
  intro hmem
  unfold headerContent at hmem
  rcases hd : r.desc with _ | d <;> rw [hd] at hmem
  · simp only at hmem
    rw [List.append_nil] at hmem
    have := hid _ hmem
    rw [ws_newline] at this
    exact Bool.true_eq_false.mp this
  · rw [hd] at hdesc
    simp only [List.mem_append, List.mem_cons] at hmem
    rcases hmem with hmem | hmem | hmem
    · have := hid _ hmem
      rw [ws_newline] at this
      exact Bool.true_eq_false.mp this
    · exact absurd hmem.symm (by decide)
    · exact hdesc.2.2 hmem

theorem headerContent_trim {r : RecSpec} (h : WfRecW r) :
    trimEnd (headerContent r ++ ['\n']) = headerContent r := by
  rw [trimEnd_concat_ws ws_newline]
  obtain ⟨hid, hdesc, -⟩ := h
  unfold headerContent
  rcases hd : r.desc with _ | d
  · simp only [List.append_nil]
    exact trimEnd_of_no_ws hid
  · rw [hd] at hdesc
    have h2 : r.id ++ ' ' :: d = (r.id ++ [' ']) ++ d := by simp
    simp only [h2]
    exact trimEnd_append_of_fixed hdesc.2.1 hdesc.1 _

theorem splitn2_headerContent {r : RecSpec} (h : WfRecW r) :
    splitn2 (headerContent r) = (r.id, r.desc) := by
  unfold headerContent
  rcases hd : r.desc with _ | d
  · rw [List.append_nil]
    exact splitn2_of_no_ws h.1
  · exact splitn2_append h.1 ws_space d

/-- The one-line cache that represents the head of a remaining record
list. -/
def cacheOf : List RecSpec → List Char
  | [] => []
  | r :: _ => headerLine r

/-- The remaining buffered input that goes with `cacheOf`. -/
def readerOf : List RecSpec → List Char
  | [] => []
  | r :: rs => bodyText r ++ render rs

theorem render_eq_cache_reader (rs : List RecSpec) :
    render rs = cacheOf rs ++ readerOf rs := by
  cases rs <;> simp [render, cacheOf, readerOf, headerLine]

theorem headerLine_ne_nil (r : RecSpec) : headerLine r ≠ [] := by
  simp [headerLine]

theorem headerLine_head? (r : RecSpec) : (headerLine r).head? = some '>' := rfl

theorem readLine_render {rs : List RecSpec} (hrs : ∀ r ∈ rs, WfRecW r) (hne : rs ≠ []) :
    readLine (render rs) = (cacheOf rs, readerOf rs) := by
  cases rs with
  | nil => exact absurd rfl hne
  | cons r rs' =>
    have hnl : '\n' ∉ '>' :: headerContent r := by
      simp only [List.mem_cons, not_or]
      exact ⟨by decide, headerContent_no_newline (hrs r (by simp))⟩
    have h2 : render (r :: rs') =
        ('>' :: headerContent r) ++ '\n' :: (bodyText r ++ render rs') := by
      simp [render, headerLine]
    rw [h2, readLine_append hnl]
    simp [cacheOf, readerOf, headerLine]

theorem concat_newline_head_ne_gt {l : List Char} (h : l.head? ≠ some '>') :
    (l ++ ['\n']).head? ≠ some '>' := by
  cases l with
  | nil => simp
  | cons c cs => simpa using fun hc => h (by simp [hc])

/-- Running the sequence-line loop over the rendered body of a record
followed by the rendering of the remaining records: every line is
appended (trailing whitespace trimmed), and the loop stops exactly at
the next header line (or at end of input). -/
theorem readSeqLines_render {ls : List (List Char)} (hls : ∀ l ∈ ls, WfLine l)
    {rs : List RecSpec} (hrs : ∀ r ∈ rs, WfRecW r) (seq : List Char) :
    readSeqLines (linesText ls ++ render rs) seq =
      (seq ++ joinTrimEnd ls, cacheOf rs, readerOf rs) := by
  induction ls generalizing seq with
  | nil =>
    rw [readSeqLines_unfold]
    simp only [linesText, List.nil_append]
    cases rs with
    | nil => simp [render, readLine, cacheOf, readerOf, joinTrimEnd]
    | cons r rs' =>
      rw [readLine_render hrs (by simp)]
      simp [cacheOf, headerLine_ne_nil, headerLine_head?, joinTrimEnd]
  | cons l ls ih =>
    have hl := hls l (by simp)
    have h2 : linesText (l :: ls) ++ render rs =
        l ++ '\n' :: (linesText ls ++ render rs) := by
      simp [linesText]
    rw [readSeqLines_unfold, h2, readLine_append hl.1]
    simp only
    rw [if_neg (by simp), if_neg (concat_newline_head_ne_gt hl.2)]
    rw [trimEnd_concat_ws ws_newline]
    rw [ih (fun x hx => hls x (by simp [hx])) (seq ++ trimEnd l)]
    simp [joinTrimEnd]

/-! ### The reader on well-formed input -/

/-- The reader state that corresponds to `rs` being the records still
to be produced: either the cache is empty and the whole rendering of
`rs` is unread, or the cache already holds the header line of the first
record of `rs`. -/
def RepOk (st : FastaReader) (rs : List RecSpec) : Prop :=
  st.error_has_occured = false ∧
  ((st.line_cache = [] ∧ st.reader = render rs) ∨
   (rs ≠ [] ∧ st.line_cache = cacheOf rs ∧ st.reader = readerOf rs))

theorem repOk_new (rs : List RecSpec) : RepOk (FastaReader.new (render rs)) rs :=
  ⟨rfl, Or.inl ⟨rfl, rfl⟩⟩

theorem readCore_header {r : RecSpec} {rs : List RecSpec}
    (hr : WfRecW r) (hrs : ∀ x ∈ rs, WfRecW x) :
    readCore (headerLine r) (bodyText r ++ render rs) =
      (.ok (), toRec r, cacheOf rs, readerOf rs) := by
  have hbody : readSeqLines (bodyText r ++ render rs) [] =
      ([] ++ joinTrimEnd r.seqLines, cacheOf rs, readerOf rs) :=
    readSeqLines_render hr.2.2 hrs []
  simp only [readCore, headerLine_head?, reduceIte]
  rw [show (headerLine r).drop 1 = headerContent r ++ ['\n'] from rfl]
  rw [headerContent_trim hr, splitn2_headerContent hr, hbody]
  simp [toRec]

theorem readLine_render_cons {r : RecSpec} {rs : List RecSpec} (hr : WfRecW r) :
    readLine (render (r :: rs)) = (headerLine r, bodyText r ++ render rs) := by
  have hnl : '\n' ∉ '>' :: headerContent r := by
    simp only [List.mem_cons, not_or]
    exact ⟨by decide, headerContent_no_newline hr⟩
  have h2 : render (r :: rs) =
      ('>' :: headerContent r) ++ '\n' :: (bodyText r ++ render rs) := by
    simp [render, headerLine]
  rw [h2, readLine_append hnl]
  simp [headerLine]

theorem read_repOk {st : FastaReader} {r : RecSpec} {rs : List RecSpec}
    (hr : WfRecW r) (hrs : ∀ x ∈ rs, WfRecW x) (h : RepOk st (r :: rs)) :
    st.read = (.ok (), toRec r, ⟨readerOf rs, false, cacheOf rs⟩) := by
  obtain ⟨hflag, hcase⟩ := h
  rcases hcase with ⟨hc, hrd⟩ | ⟨-, hc, hrd⟩
  · cases st with
    | mk rd fl lc =>
      simp only at hc hrd hflag
      subst hc; subst hrd; subst hflag
      simp only [FastaReader.read, if_pos]
      rw [readLine_render_cons hr]
      dsimp only
      rw [if_neg (headerLine_ne_nil r)]
      rw [readCore_header hr hrs]
  · cases st with
    | mk rd fl lc =>
      simp only [cacheOf] at hc
      simp only [readerOf] at hrd
      simp only at hc hrd hflag
      subst hc; subst hrd; subst hflag
      simp only [FastaReader.read]
      rw [if_neg (headerLine_ne_nil r)]
      rw [readCore_header hr hrs]

theorem toRec_not_isEmpty {r : RecSpec} (h : WfRec r) : (toRec r).isEmpty = false := by
  have h1 : r.id.isEmpty = false := by
    cases hid : r.id with
    | nil => exact absurd hid h.1
    | cons c cs => rfl
  simp [toRec, FastaSequence.isEmpty, h1]

theorem next_repOk_cons {st : FastaReader} {r : RecSpec} {rs : List RecSpec}
    (hr : WfRec r) (hrs : ∀ x ∈ rs, WfRec x) (h : RepOk st (r :: rs)) :
    st.next = (some (.ok (toRec r)), ⟨readerOf rs, false, cacheOf rs⟩) ∧
      RepOk ⟨readerOf rs, false, cacheOf rs⟩ rs := by
  constructor
  · rw [FastaReader.next, if_neg (by simp [h.1])]
    rw [read_repOk hr.2 (fun x hx => (hrs x hx).2) h]
    simp [toRec_not_isEmpty hr]
  · refine ⟨rfl, ?_⟩
    cases rs with
    | nil => exact Or.inl ⟨rfl, rfl⟩
    | cons x xs => exact Or.inr ⟨by simp, rfl, rfl⟩

theorem next_repOk_nil {st : FastaReader} (h : RepOk st []) : st.next = (none, st) := by
  obtain ⟨hflag, hcase⟩ := h
  rcases hcase with ⟨hc, hrd⟩ | ⟨hne, -⟩
  · simp only [render] at hrd
    cases st with
    | mk rd fl lc =>
      simp only at hc hrd hflag
      subst hc; subst hrd; subst hflag
      rfl
  · exact absurd rfl hne

theorem itemAt_succ (st : FastaReader) (n : Nat) :
    st.itemAt (n + 1) = ((st.next).2).itemAt n := rfl

theorem itemAt_of_next_fixed {st : FastaReader} (h : st.next = (none, st)) :
    ∀ n, st.itemAt n = none
  | 0 => by simp [FastaReader.itemAt, FastaReader.iterate, h]
  | n + 1 => by
    rw [itemAt_succ, h]
    exact itemAt_of_next_fixed h n

/-- On a state that represents remaining records `rs`, the `n`-th item
of the iteration is the `n`-th record of `rs` (and `none` past the
end). -/
theorem itemAt_repOk {rs : List RecSpec} (hrs : ∀ r ∈ rs, WfRec r) :
    ∀ st, RepOk st rs → ∀ n,
      st.itemAt n = ((rs.map toRec)[n]?).map Except.ok := by
  induction rs with
  | nil =>
    intro st h n
    rw [itemAt_of_next_fixed (next_repOk_nil h) n]
    simp
  | cons r rs ih =>
    intro st h n
    obtain ⟨hnext, hrep⟩ :=
      next_repOk_cons (hrs r (by simp)) (fun x hx => hrs x (by simp [hx])) h
    cases n with
    | zero =>
      simp only [FastaReader.itemAt, FastaReader.iterate, hnext]
      simp
    | succ n =>
      rw [itemAt_succ, hnext]
      rw [ih (fun x hx => hrs x (by simp [hx])) _ hrep n]
      simp

/-! ### Claim C1 -/

/-- C1: For every well-formed FASTA input containing `N` records (the
rendering of a list `rs` of `N` well-formed record descriptions),
repeatedly calling `Iterator::next` yields exactly the `N` records in
input order — the `n`-th call returns the `n`-th record for `n < N` —
and every call from the `N`-th on signals end-of-sequence (`none`); in
particular for `rs = []` the input is empty and the very first call
already returns `none`. -/
theorem C1_reader_yields_records (rs : List RecSpec) (hrs : ∀ r ∈ rs, WfRec r)
    (n : Nat) :
    (FastaReader.new (render rs)).itemAt n = ((rs.map toRec)[n]?).map Except.ok :=
  itemAt_repOk hrs _ (repOk_new rs) n

/-- Demo input for the C1 witness: two records, the second with a
description, the first with a two-line sequence. -/
def demoRecs : List RecSpec :=
  [⟨"id1".toList, none, ["ACCG".toList, "TAGG".toList]⟩,
   ⟨"id2".toList, some "some description".toList, ["GGGG".toList]⟩]

theorem C1_reader_yields_records_witness :
    (∀ r ∈ demoRecs, WfRec r) ∧
      (FastaReader.new (render demoRecs)).itemAt 0 =
        some (.ok ⟨"id1".toList, none, "ACCGTAGG".toList⟩) ∧
      (FastaReader.new (render demoRecs)).itemAt 1 =
        some (.ok ⟨"id2".toList, some "some description".toList, "GGGG".toList⟩) ∧
      (FastaReader.new (render demoRecs)).itemAt 2 = none ∧
      (FastaReader.new (render demoRecs)).itemAt 3 = none :=
  ⟨by decide,
   (C1_reader_yields_records demoRecs (by decide) 0).trans rfl,
   (C1_reader_yields_records demoRecs (by decide) 1).trans rfl,
   (C1_reader_yields_records demoRecs (by decide) 2).trans rfl,
   (C1_reader_yields_records demoRecs (by decide) 3).trans rfl⟩

example :
    (FastaReader.new ">a b\nAC\nGT\n\nTT\n>c\nAA".toList).itemAt 0 =
      some (.ok ⟨['a'], some ['b'], ['A', 'C', 'G', 'T', 'T', 'T']⟩) := rfl

example :
    (FastaReader.new ">a b\nAC\nGT\n\nTT\n>c\nAA".toList).itemAt 1 =
      some (.ok ⟨['c'], none, ['A', 'A']⟩) := rfl

example :
    (FastaReader.new "ACGT\n".toList).itemAt 0 = some (.error .malformedInput) := rfl

/-! ### The error path -/

theorem readLine_recomb (s : List Char) : (readLine s).1 ++ (readLine s).2 = s := by
  induction s with
  | nil => rfl
  | cons c cs ih =>
    by_cases hc : c = '\n' <;> simp [readLine, hc, ih]

/-- Behaviour of `read` when the next unconsumed line (the cache when
non-empty, the next line of the stream otherwise) does not start with
`>`: a `MalformedInput` error, the sticky flag untouched, and the
offending line left in the cache. -/
theorem read_malformed {st : FastaReader}
    (hne : st.line_cache ++ st.reader ≠ [])
    (hhd : (st.line_cache ++ st.reader).head? ≠ some '>') :
    (st.read).1 = .error .malformedInput ∧
      (st.read).2.1 = FastaSequence.new ∧
      (st.read).2.2.error_has_occured = st.error_has_occured ∧
      (st.read).2.2.line_cache ≠ [] ∧
      (st.read).2.2.line_cache.head? ≠ some '>' ∧
      (st.read).2.2.line_cache ++ (st.read).2.2.reader = st.line_cache ++ st.reader := by
  cases st with
  | mk rd fl lc =>
    cases lc with
    | nil =>
      simp only [List.nil_append] at hne hhd
      have hline : (readLine rd).1 ≠ [] := fun h => hne (readLine_fst_eq_nil_iff.mp h)
      have hlh : (readLine rd).1.head? ≠ some '>' := by
        rw [readLine_fst_head?]; exact hhd
      simp only [FastaReader.read, readCore]
      simp [hline, hlh, readLine_recomb]
    | cons c cs =>
      have hch : c ≠ '>' := fun h => hhd (by simp [h])
      simp only [FastaReader.read, readCore]
      simp [hch]

/-- When `read` fails, `next` surfaces the error once and sets the
sticky flag on the resulting state. -/
theorem next_of_read_error {st : FastaReader} {e : ReadError} {rec : FastaSequence}
    {st2 : FastaReader} (hflag : st.error_has_occured = false)
    (h : st.read = (.error e, rec, st2)) :
    st.next = (some (.error e), { st2 with error_has_occured := true }) := by
  unfold FastaReader.next
  rw [hflag, h]
  rfl

/-- When `read` succeeds, `next` filters the empty record to `none`. -/
theorem next_of_read_ok {st : FastaReader} {rec : FastaSequence} {st2 : FastaReader}
    (hflag : st.error_has_occured = false) (h : st.read = (.ok (), rec, st2)) :
    st.next = if rec.isEmpty then (none, st2) else (some (.ok rec), st2) := by
  unfold FastaReader.next
  rw [hflag, h]
  rfl

theorem next_of_flag {st : FastaReader} (h : st.error_has_occured = true) :
    st.next = (none, st) := by
  unfold FastaReader.next
  rw [h]
  rfl

theorem itemAt_flag {st : FastaReader} (h : st.error_has_occured = true) :
    ∀ n, st.itemAt n = none :=
  itemAt_of_next_fixed (next_of_flag h)

/-! ### Claim C2 -/

/-- C2: If, when a new record is expected (the sticky flag is unset),
the next unconsumed line — the lookahead cache when non-empty,
otherwise the first line of the remaining stream — exists but does not
begin with `>`, then that `next` call returns a `MalformedInput` error,
the sticky flag is set on the resulting state, and every subsequent
`next` call returns `none` (no item, no error). -/
theorem C2_malformed_error_then_exhausted {st : FastaReader}
    (hflag : st.error_has_occured = false)
    (hne : st.line_cache ++ st.reader ≠ [])
    (hhd : (st.line_cache ++ st.reader).head? ≠ some '>') :
    (st.next).1 = some (.error .malformedInput) ∧
      (st.next).2.error_has_occured = true ∧
      ∀ n, (st.next).2.itemAt n = none := by
  obtain ⟨h1, h2, h3, h4, h5, h6⟩ := read_malformed hne hhd
  rcases hread : st.read with ⟨res, rec, st2⟩
  rw [hread] at h1
  simp only at h1
  subst h1
  have hn := next_of_read_error hflag hread
  rw [hn]
  exact ⟨rfl, rfl, itemAt_flag rfl⟩

theorem C2_malformed_error_then_exhausted_witness :
    ((FastaReader.new "ACGT\n".toList).next).1 = some (.error .malformedInput) ∧
      ((FastaReader.new "ACGT\n".toList).next).2.itemAt 0 = none ∧
      ((FastaReader.new "ACGT\n".toList).next).2.itemAt 5 = none :=
  ⟨(C2_malformed_error_then_exhausted (by decide) (by decide) (by decide)).1,
   (C2_malformed_error_then_exhausted (by decide) (by decide) (by decide)).2.2 0,
   (C2_malformed_error_then_exhausted (by decide) (by decide) (by decide)).2.2 5⟩

/-! ### Claim C10 -/

/-- `read` on a state whose cache is a non-empty line not starting with
`>` fails and leaves the state completely unchanged. -/
theorem read_cache_malformed {st : FastaReader} (h1 : st.line_cache ≠ [])
    (h2 : st.line_cache.head? ≠ some '>') :
    st.read = (.error .malformedInput, FastaSequence.new, st) := by
  cases st with
  | mk rd fl lc =>
    simp only at h1 h2
    simp only [FastaReader.read]
    rw [if_neg h1]
    simp only [readCore]
    rw [if_neg h2]

/-- `read` never touches the sticky error flag, whatever the state. -/
theorem read_preserves_flag (st : FastaReader) :
    (st.read).2.2.error_has_occured = st.error_has_occured := by
  cases st with
  | mk rd fl lc =>
    simp only [FastaReader.read, readCore]
    split
    · split
      · rfl
      · split <;> rfl
    · split <;> rfl

/-- C10: The sticky flag is set only inside `next`, never inside
`read`: `read` preserves the flag on every state, and after `read`
returns a `MalformedInput` error the offending line remains in the
lookahead cache, so calling `read` again (bypassing the iterator)
raises the same `MalformedInput` error again with the state unchanged —
it does not signal end-of-input. -/
theorem C10_read_reraises_malformed {st : FastaReader}
    (hne : st.line_cache ++ st.reader ≠ [])
    (hhd : (st.line_cache ++ st.reader).head? ≠ some '>') :
    (st.read).1 = .error .malformedInput ∧
      (∀ st3 : FastaReader, (st3.read).2.2.error_has_occured = st3.error_has_occured) ∧
      (st.read).2.2.line_cache ≠ [] ∧
      (st.read).2.2.line_cache.head? ≠ some '>' ∧
      ((st.read).2.2).read = (.error .malformedInput, FastaSequence.new, (st.read).2.2) := by
  obtain ⟨h1, h2, h3, h4, h5, h6⟩ := read_malformed hne hhd
  exact ⟨h1, read_preserves_flag, h4, h5, read_cache_malformed h4 h5⟩

theorem C10_read_reraises_malformed_witness :
    ((FastaReader.new "ACGT\n".toList).read).1 = .error .malformedInput ∧
      (((FastaReader.new "ACGT\n".toList).read).2.2).read =
        (.error .malformedInput, FastaSequence.new,
          ((FastaReader.new "ACGT\n".toList).read).2.2) :=
  ⟨(C10_read_reraises_malformed (by decide) (by decide)).1,
   (C10_read_reraises_malformed (by decide) (by decide)).2.2.2.2⟩

/-! ### Definitional unfoldings of `read` on constructor states -/

theorem read_nil_cache (rd : List Char) (fl : Bool) :
    FastaReader.read ⟨rd, fl, []⟩ =
      if (readLine rd).1 = [] then
        (.ok (), FastaSequence.new, ⟨(readLine rd).2, fl, (readLine rd).1⟩)
      else
        ((readCore (readLine rd).1 (readLine rd).2).1,
         (readCore (readLine rd).1 (readLine rd).2).2.1,
         ⟨(readCore (readLine rd).1 (readLine rd).2).2.2.2, fl,
          (readCore (readLine rd).1 (readLine rd).2).2.2.1⟩) := rfl

theorem readCore_gt (h reader : List Char) :
    readCore ('>' :: h) reader =
      (.ok (), ⟨(splitn2 (trimEnd h)).1, (splitn2 (trimEnd h)).2,
                (readSeqLines reader []).1⟩,
       (readSeqLines reader []).2.1, (readSeqLines reader []).2.2) := rfl

/-! ### Claim C9 -/

/-- C9: If the final record of the input is a header line consisting of
`>` followed only by whitespace, with no sequence lines before
end-of-input, `read` parses it to the record with empty id, absent
description and empty sequence; that record satisfies the `is_empty`
end-of-stream sentinel (and would fail validation with `MissingId`), so
the iterator returns `none` instead of yielding it — the trailing
record is silently dropped rather than surfaced as invalid. -/
theorem C9_ws_only_header_dropped {h : List Char}
    (hws : ∀ c ∈ h, isWhitespace c = true) (hnl : '\n' ∉ h) :
    (FastaReader.new ('>' :: h ++ ['\n'])).read =
        (.ok (), FastaSequence.new, ⟨[], false, []⟩) ∧
      FastaSequence.new.isEmpty = true ∧
      FastaSequence.new.check = .error .missingId ∧
      ((FastaReader.new ('>' :: h ++ ['\n'])).next).1 = none := by
  have hnl2 : '\n' ∉ '>' :: h := by
    simp only [List.mem_cons, not_or]
    exact ⟨by decide, hnl⟩
  have heq : '>' :: h ++ ['\n'] = ('>' :: h) ++ '\n' :: [] := by simp
  have hrl : readLine ('>' :: h ++ ['\n']) = (('>' :: h) ++ ['\n'], []) := by
    rw [heq]
    exact readLine_append hnl2 []
  have htr : trimEnd (h ++ ['\n']) = [] := by
    rw [trimEnd_concat_ws ws_newline]
    exact trimEnd_eq_nil hws
  have hread : (FastaReader.new ('>' :: h ++ ['\n'])).read =
      (.ok (), FastaSequence.new, ⟨[], false, []⟩) := by
    rw [show FastaReader.new ('>' :: h ++ ['\n']) =
        ⟨'>' :: h ++ ['\n'], false, []⟩ from rfl]
    rw [read_nil_cache, hrl]
    rw [if_neg (by simp)]
    dsimp only
    rw [show ('>' :: h) ++ ['\n'] = '>' :: (h ++ ['\n']) from by simp]
    rw [readCore_gt, htr]
    rfl
  refine ⟨hread, rfl, rfl, ?_⟩
  rw [next_of_read_ok rfl hread]
  rfl

theorem C9_ws_only_header_dropped_witness :
    (FastaReader.new ('>' :: " ".toList ++ ['\n'])).read =
        (.ok (), FastaSequence.new, ⟨[], false, []⟩) ∧
      ((FastaReader.new ('>' :: " ".toList ++ ['\n'])).next).1 = none :=
  ⟨(C9_ws_only_header_dropped (by decide) (by decide)).1,
   (C9_ws_only_header_dropped (by decide) (by decide)).2.2.2⟩

/-! ### Claim C6 -/

theorem isEmpty_false_of_ne_nil {l : List Char} (h : l ≠ []) : l.isEmpty = false := by
  cases l with
  | nil => exact absurd rfl h
  | cons a as => rfl

/-- C6: The validation operation `check` is a pure function of the
record: it returns the `MissingId` error exactly when the id is empty
(regardless of the sequence, so `MissingId` takes precedence), the
`NonAsciiSequence` error exactly when the id is non-empty and the
sequence contains a scalar outside the ASCII range, and success exactly
otherwise.  (It is not referenced by `read`/`next`, whose only failure
is the structural `MalformedInput` error.) -/
theorem C6_check_classification (r : FastaSequence) :
    (r.check = .error .missingId ↔ r.id = []) ∧
      (r.check = .error .nonAsciiSequence ↔ r.id ≠ [] ∧ isAscii r.seq = false) ∧
      (r.check = .ok () ↔ r.id ≠ [] ∧ isAscii r.seq = true) := by
  by_cases h1 : r.id = []
  · simp [FastaSequence.check, h1]
  · have h2 : r.id.isEmpty = false := isEmpty_false_of_ne_nil h1
    rcases h3 : isAscii r.seq with _ | _
    · simp [FastaSequence.check, h1, h2, h3]
    · simp [FastaSequence.check, h1, h2, h3]

/-! ### Claim C8 -/

/-- C8: The formatting operation produces exactly
`>` ++ id ++ (one space ++ description, only when present) ++ `\n` ++
sequence ++ `\n`; when the description is absent both the space and the
description are omitted, and the sequence is emitted as one unwrapped
line. -/
theorem C8_fmt_layout (r : FastaSequence) :
    r.fmt = ['>'] ++ r.id ++
        (match r.desc with | some d => [' '] ++ d | none => ([] : List Char)) ++
        ['\n'] ++ r.seq ++ ['\n'] := by
  unfold FastaSequence.fmt
  rcases hd : r.desc with _ | d <;> simp [hd]

/-! ### Claim C3 -/

/-- C3 counterexample: for the input `>i\nA \n`, whose sequence line
`A ` carries a trailing space before its terminator, the reader
produces the sequence `A`: Rust `trim_end` removes the trailing space
together with the terminator, contradicting the claim that exactly the
line terminator and no other characters are stripped (which would give
`A `). -/
theorem C3_counterexample :
    ((FastaReader.new ">i\nA \n".toList).next).1 =
        some (.ok ⟨['i'], none, ['A']⟩) ∧
      (['A'] : List Char) ≠ ['A', ' '] :=
  ⟨rfl, by decide⟩

/-- C3 (amended): the sequence of a produced record is the
concatenation, in input order with no separators, of its non-header
lines with all trailing whitespace (the line terminator together with
any trailing spaces or tabs) stripped from each line; blank or
whitespace-only lines contribute the empty string and do not end the
record. -/
theorem C3_seq_concat_trimmed (id : List Char) (desc : Option (List Char))
    (ls : List (List Char)) (h : WfRec ⟨id, desc, ls⟩) :
    ((FastaReader.new (render [⟨id, desc, ls⟩])).next).1 =
      some (.ok ⟨id, desc, joinTrimEnd ls⟩) := by
  obtain ⟨hn, -⟩ := next_repOk_cons h (by simp) (repOk_new [⟨id, desc, ls⟩])
  rw [hn]
  rfl

theorem C3_seq_concat_trimmed_witness :
    ((FastaReader.new
        (render [⟨['i'], none, [['A', ' '], [], ['\t'], ['G', 'T']]⟩])).next).1 =
      some (.ok ⟨['i'], none, ['A', 'G', 'T']⟩) :=
  (C3_seq_concat_trimmed ['i'] none [['A', ' '], [], ['\t'], ['G', 'T']]
    (by decide)).trans rfl

/-! ### Claim C4 -/

/-- C4 counterexample: for the header `>id2  some description` (two
spaces after the id), the produced description is ` some description`,
which begins with a whitespace character: `splitn(2, char::is_whitespace)`
splits at the first whitespace character only, not after the whole
whitespace run, contradicting the claim that the description never
begins with whitespace. -/
theorem C4_counterexample :
    ((FastaReader.new ">id2  some description\nGGGG\n".toList).next).1 =
        some (.ok ⟨"id2".toList, some (' ' :: "some description".toList),
          "GGGG".toList⟩) ∧
      (' ' :: "some description".toList) ≠ "some description".toList :=
  ⟨rfl, by decide⟩

/-- C4 (amended): for a header line `>` ++ `h` (with the remainder `h`
trimmed of trailing whitespace to `t`), the id is the longest
whitespace-free prefix of `t` — the first whitespace-delimited field —
and the description is everything after the first whitespace
*character* of `t` (so it retains any further whitespace characters of
the separating run and can begin with whitespace); the description is
absent exactly when `t` contains no whitespace, i.e. when the header
has no second field. -/
theorem C4_header_split (h rest : List Char) (hnl : '\n' ∉ h) :
    (((FastaReader.new ('>' :: h ++ '\n' :: rest)).read).2.1).id =
        (trimEnd h).takeWhile (fun c => !isWhitespace c) ∧
      (((FastaReader.new ('>' :: h ++ '\n' :: rest)).read).2.1).desc =
        (if (trimEnd h).any isWhitespace then
          some ((trimEnd h).drop
            (((trimEnd h).takeWhile fun c => !isWhitespace c).length + 1))
        else none) := by
  have hnl2 : '\n' ∉ '>' :: h := by
    simp only [List.mem_cons, not_or]
    exact ⟨by decide, hnl⟩
  have heq : '>' :: h ++ '\n' :: rest = ('>' :: h) ++ '\n' :: rest := by simp
  have hrl : readLine ('>' :: h ++ '\n' :: rest) = (('>' :: h) ++ ['\n'], rest) := by
    rw [heq]
    exact readLine_append hnl2 rest
  rw [show FastaReader.new ('>' :: h ++ '\n' :: rest) =
      ⟨'>' :: h ++ '\n' :: rest, false, []⟩ from rfl]
  rw [read_nil_cache, hrl]
  rw [if_neg (by simp)]
  dsimp only
  rw [show ('>' :: h) ++ ['\n'] = '>' :: (h ++ ['\n']) from by simp]
  rw [readCore_gt]
  rw [trimEnd_concat_ws ws_newline]
  rw [splitn2_eq_takeWhile_drop (trimEnd h)]
  exact ⟨rfl, rfl⟩

theorem C4_header_split_witness :
    ('\n' ∉ "id2 some description".toList) ∧
      (((FastaReader.new
          ('>' :: "id2 some description".toList ++ '\n' :: "GGGG\n".toList)).read).2.1).id =
        "id2".toList ∧
      (((FastaReader.new
          ('>' :: "id2 some description".toList ++ '\n' :: "GGGG\n".toList)).read).2.1).desc =
        some "some description".toList ∧
      (((FastaReader.new
          ('>' :: "id3".toList ++ '\n' :: "AAAA\n".toList)).read).2.1).desc = none :=
  ⟨by decide,
   (C4_header_split "id2 some description".toList "GGGG\n".toList (by decide)).1.trans rfl,
   (C4_header_split "id2 some description".toList "GGGG\n".toList (by decide)).2.trans rfl,
   (C4_header_split "id3".toList "AAAA\n".toList (by decide)).2.trans rfl⟩

/-! ### Records produced from arbitrary input -/

theorem read_cons_cache (rd : List Char) (fl : Bool) (c : Char) (cs : List Char) :
    FastaReader.read ⟨rd, fl, c :: cs⟩ =
      ((readCore (c :: cs) rd).1, (readCore (c :: cs) rd).2.1,
       ⟨(readCore (c :: cs) rd).2.2.2, fl, (readCore (c :: cs) rd).2.2.1⟩) := rfl

theorem trimEnd_append_fixed₂ {a b : List Char} (ha : trimEnd a = a)
    (hb : trimEnd b = b) : trimEnd (a ++ b) = a ++ b := by
  rcases hbe : b with _ | ⟨x, xs⟩
  · simpa using ha
  · rw [← hbe]
    exact trimEnd_append_of_fixed hb (by simp [hbe]) a

theorem trimEnd_no_nl {s : List Char} (h : '\n' ∉ s.dropLast) : '\n' ∉ trimEnd s := by
  rcases List.eq_nil_or_concat' s with rfl | ⟨s₀, x, rfl⟩
  · simp [trimEnd_nil]
  · rw [List.dropLast_concat] at h
    rcases hx : isWhitespace x with _ | _
    · rw [trimEnd_concat_not_ws hx]
      simp only [List.mem_append, List.mem_singleton, not_or]
      refine ⟨h, fun he => ?_⟩
      rw [← he] at hx
      rw [ws_newline] at hx
      exact Bool.true_eq_false.mp hx
    · rw [trimEnd_concat_ws hx]
      exact fun hm => h (mem_of_mem_trimEnd hm)

theorem head?_trimEnd {s : List Char} (h : trimEnd s ≠ []) :
    (trimEnd s).head? = s.head? := by
  obtain ⟨t, ht⟩ := trimEnd_prefixOf s
  conv_rhs => rw [← ht]
  rcases hx : trimEnd s with _ | ⟨c, cs⟩
  · exact absurd hx h
  · simp

theorem not_mem_dropLast_tail {x a : Char} {as : List Char}
    (h : x ∉ (a :: as).dropLast) : x ∉ as.dropLast := by
  cases as with
  | nil => simp
  | cons b bs =>
    rw [List.dropLast_cons₂] at h
    intro hx
    exact h (List.mem_cons_of_mem a hx)

/-- Properties of the sequence-line loop on arbitrary input: the
accumulated sequence stays newline-free, trailing-whitespace-free and
never starts with `>`, while the final cache is empty or a single line
starting with `>`. -/
theorem readSeqLinesAux_props :
    ∀ (n : Nat) (input seq : List Char), input.length ≤ n → '\n' ∉ seq →
      trimEnd seq = seq → seq.head? ≠ some '>' →
      ('\n' ∉ (readSeqLines input seq).1 ∧
       trimEnd (readSeqLines input seq).1 = (readSeqLines input seq).1 ∧
       (readSeqLines input seq).1.head? ≠ some '>' ∧
       ((readSeqLines input seq).2.1 = [] ∨
        (readSeqLines input seq).2.1.head? = some '>') ∧
       '\n' ∉ (readSeqLines input seq).2.1.dropLast) := by
  intro n
  induction n with
  | zero =>
    intro input seq hlen h1 h2 h3
    have hin : input = [] := List.length_eq_zero.mp (Nat.le_zero.mp hlen)
    subst hin
    rw [readSeqLines_unfold]
    rw [if_pos (show (readLine ([] : List Char)).1 = [] from rfl)]
    exact ⟨h1, h2, h3, Or.inl rfl, by simp⟩
  | succ n ih =>
    intro input seq hlen h1 h2 h3
    rw [readSeqLines_unfold]
    by_cases hline : (readLine input).1 = []
    · rw [if_pos hline]
      exact ⟨h1, h2, h3, Or.inl rfl, by simp⟩
    · rw [if_neg hline]
      by_cases hgt : (readLine input).1.head? = some '>'
      · rw [if_pos hgt]
        exact ⟨h1, h2, h3, Or.inr hgt, readLine_fst_dropLast input⟩
      · rw [if_neg hgt]
        have hin : input ≠ [] := fun he => hline (by rw [he]; rfl)
        have hlt := readLine_snd_length hin
        have hnl : '\n' ∉ trimEnd (readLine input).1 :=
          trimEnd_no_nl (readLine_fst_dropLast input)
        have e1 : '\n' ∉ seq ++ trimEnd (readLine input).1 := by
          simp only [List.mem_append, not_or]
          exact ⟨h1, hnl⟩
        have e2 : trimEnd (seq ++ trimEnd (readLine input).1) =
            seq ++ trimEnd (readLine input).1 :=
          trimEnd_append_fixed₂ h2 (trimEnd_idem _)
        have e3 : (seq ++ trimEnd (readLine input).1).head? ≠ some '>' := by
          cases seq with
          | nil =>
            simp only [List.nil_append]
            by_cases htne : trimEnd (readLine input).1 = []
            · rw [htne]
              simp
            · rw [head?_trimEnd htne]
              exact hgt
          | cons a as => simpa using h3
        exact ih _ _ (by omega) e1 e2 e3

theorem readSeqLines_props (input seq : List Char) (h1 : '\n' ∉ seq)
    (h2 : trimEnd seq = seq) (h3 : seq.head? ≠ some '>') :
    ('\n' ∉ (readSeqLines input seq).1 ∧
     trimEnd (readSeqLines input seq).1 = (readSeqLines input seq).1 ∧
     (readSeqLines input seq).1.head? ≠ some '>' ∧
     ((readSeqLines input seq).2.1 = [] ∨
      (readSeqLines input seq).2.1.head? = some '>') ∧
     '\n' ∉ (readSeqLines input seq).2.1.dropLast) :=
  readSeqLinesAux_props input.length input seq le_rfl h1 h2 h3

/-- The lookahead-cache invariant of the reader: the cache is empty or
a single line (no `'\n'` before its final character) beginning with the
record marker `>`. -/
def CacheInv (st : FastaReader) : Prop :=
  st.line_cache = [] ∨
    (st.line_cache.head? = some '>' ∧ '\n' ∉ st.line_cache.dropLast)

theorem readCore_ok_cache {cache reader : List Char}
    (h : (readCore cache reader).1 = .ok ()) :
    (readCore cache reader).2.2.1 = [] ∨
      ((readCore cache reader).2.2.1.head? = some '>' ∧
       '\n' ∉ (readCore cache reader).2.2.1.dropLast) := by
  by_cases hh : cache.head? = some '>'
  · have he : (readCore cache reader).2.2.1 = (readSeqLines reader []).2.1 := by
      unfold readCore
      rw [if_pos hh]
    rw [he]
    obtain ⟨-, -, -, p4, p5⟩ := readSeqLines_props reader [] (by simp) rfl (by simp)
    rcases p4 with p4 | p4
    · exact Or.inl p4
    · exact Or.inr ⟨p4, p5⟩
  · exfalso
    unfold readCore at h
    rw [if_neg hh] at h
    simp at h

theorem readCore_cache_single {cache reader : List Char}
    (h : '\n' ∉ cache.dropLast) :
    '\n' ∉ (readCore cache reader).2.2.1.dropLast := by
  by_cases hh : cache.head? = some '>'
  · have he : (readCore cache reader).2.2.1 = (readSeqLines reader []).2.1 := by
      unfold readCore
      rw [if_pos hh]
    rw [he]
    obtain ⟨-, -, -, -, p5⟩ := readSeqLines_props reader [] (by simp) rfl (by simp)
    exact p5
  · have he : (readCore cache reader).2.2.1 = cache := by
      unfold readCore
      rw [if_neg hh]
    rw [he]
    exact h

theorem read_cache_single {st : FastaReader} (h : '\n' ∉ st.line_cache.dropLast) :
    '\n' ∉ ((st.read).2.2).line_cache.dropLast := by
  cases st with
  | mk rd fl lc =>
    simp only at h
    cases lc with
    | nil =>
      rw [read_nil_cache]
      by_cases hline : (readLine rd).1 = []
      · rw [if_pos hline]
        simp [hline]
      · rw [if_neg hline]
        exact readCore_cache_single (readLine_fst_dropLast rd)
    | cons c cs =>
      rw [read_cons_cache]
      exact readCore_cache_single h

theorem next_cache_single {st : FastaReader} (h : '\n' ∉ st.line_cache.dropLast) :
    '\n' ∉ ((st.next).2).line_cache.dropLast := by
  rcases hf : st.error_has_occured with _ | _
  · rcases hread : st.read with ⟨res, rec, stx⟩
    have h2 : '\n' ∉ stx.line_cache.dropLast := by
      have h3 := read_cache_single h
      rw [hread] at h3
      exact h3
    cases res with
    | ok u =>
      cases u
      rw [next_of_read_ok hf hread]
      split
      · exact h2
      · exact h2
    | error e =>
      rw [next_of_read_error hf hread]
      exact h2
  · rw [next_of_flag hf]
    exact h

theorem iterate_cache_single (input : List Char) :
    ∀ n, '\n' ∉ ((FastaReader.new input).iterate n).line_cache.dropLast := by
  have H : ∀ (n : Nat) (st : FastaReader), '\n' ∉ st.line_cache.dropLast →
      '\n' ∉ (st.iterate n).line_cache.dropLast := by
    intro n
    induction n with
    | zero => exact fun st h => h
    | succ n ih => exact fun st h => ih _ (next_cache_single h)
  exact fun n => H n _ (by simp [FastaReader.new])

/-- The shape every record handed out by the iterator has: a
whitespace-free id, a description that is non-empty, newline-free and
carries no trailing whitespace, and a sequence that is newline-free,
carries no trailing whitespace and does not begin with `>`; and the
record is non-empty. -/
structure Producible (rec : FastaSequence) : Prop where
  id_no_ws : ∀ c ∈ rec.id, isWhitespace c = false
  desc_ok : DescOk rec.desc
  seq_no_nl : '\n' ∉ rec.seq
  seq_trim : trimEnd rec.seq = rec.seq
  seq_head : rec.seq.head? ≠ some '>'
  not_empty : rec.isEmpty = false

theorem producible_of_readCore {cache reader : List Char} {r : FastaSequence}
    (hc : '\n' ∉ cache.dropLast)
    (h1 : (readCore cache reader).1 = .ok ())
    (h2 : (readCore cache reader).2.1 = r)
    (hne : r.isEmpty = false) : Producible r := by
  by_cases hh : cache.head? = some '>'
  · have hrec : r = ⟨(splitn2 (trimEnd (cache.drop 1))).1,
        (splitn2 (trimEnd (cache.drop 1))).2, (readSeqLines reader []).1⟩ := by
      rw [← h2]
      unfold readCore
      rw [if_pos hh]
    subst hrec
    obtain ⟨p1, p2, p3, -, -⟩ := readSeqLines_props reader [] (by simp) rfl (by simp)
    have hnt : '\n' ∉ trimEnd (cache.drop 1) := by
      apply trimEnd_no_nl
      cases cache with
      | nil => simp at hh
      | cons a as =>
        rw [List.drop_one, List.tail_cons]
        exact not_mem_dropLast_tail hc
    refine ⟨splitn2_fst_no_ws _, ?_, p1, p2, p3, hne⟩
    rcases ho : (splitn2 (trimEnd (cache.drop 1))).2 with _ | d
    · trivial
    · have hsp : splitn2 (trimEnd (cache.drop 1)) =
          ((splitn2 (trimEnd (cache.drop 1))).1, some d) := by
        rw [← ho]
      obtain ⟨w, hw, ht⟩ := splitn2_some_eq hsp
      have htt := trimEnd_idem (cache.drop 1)
      rw [ht] at htt
      obtain ⟨hd1, hd2⟩ := suffix_of_trimEnd_fixed hw htt
      refine ⟨hd1, hd2, fun hmem => ?_⟩
      rw [ht] at hnt
      exact hnt (by simp [hmem])
  · exfalso
    unfold readCore at h1
    rw [if_neg hh] at h1
    simp at h1

theorem read_ok_producible {st : FastaReader} {r : FastaSequence} {stx : FastaReader}
    (hc : '\n' ∉ st.line_cache.dropLast)
    (hread : st.read = (.ok (), r, stx)) (hne : r.isEmpty = false) :
    Producible r := by
  cases st with
  | mk rd fl lc =>
    simp only at hc
    cases lc with
    | nil =>
      rw [read_nil_cache] at hread
      by_cases hline : (readLine rd).1 = []
      · rw [if_pos hline] at hread
        simp only [Prod.mk.injEq] at hread
        obtain ⟨-, h2, -⟩ := hread
        rw [← h2] at hne
        simp [FastaSequence.new, FastaSequence.isEmpty] at hne
      · rw [if_neg hline] at hread
        simp only [Prod.mk.injEq] at hread
        obtain ⟨h1, h2, -⟩ := hread
        exact producible_of_readCore (readLine_fst_dropLast rd) h1 h2 hne
    | cons c cs =>
      rw [read_cons_cache] at hread
      simp only [Prod.mk.injEq] at hread
      obtain ⟨h1, h2, -⟩ := hread
      exact producible_of_readCore hc h1 h2 hne

theorem next_ok_producible {st st2 : FastaReader} {r : FastaSequence}
    (hc : '\n' ∉ st.line_cache.dropLast)
    (h : st.next = (some (.ok r), st2)) : Producible r := by
  rcases hf : st.error_has_occured with _ | _
  · rcases hread : st.read with ⟨res, rec, stx⟩
    cases res with
    | ok u =>
      cases u
      rw [next_of_read_ok hf hread] at h
      rcases he : rec.isEmpty with _ | _
      · rw [if_neg (by simp [he])] at h
        simp only [Prod.mk.injEq, Option.some.injEq, Except.ok.injEq] at h
        obtain ⟨hrec, -⟩ := h
        subst hrec
        exact read_ok_producible hc hread he
      · rw [if_pos (by simp [he])] at h
        simp at h
    | error e =>
      rw [next_of_read_error hf hread] at h
      simp at h
  · rw [next_of_flag hf] at h
    simp at h

/-- Formatting a producible record and parsing the result with a fresh
reader yields the identical record (and a fully drained reader). -/
theorem fmt_reparse {r : FastaSequence} (h : Producible r) :
    (FastaReader.new r.fmt).next = (some (.ok r), ⟨[], false, []⟩) := by
  have hw : WfRecW ⟨r.id, r.desc, [r.seq]⟩ := by
    refine ⟨h.id_no_ws, h.desc_ok, ?_⟩
    intro l hl
    simp only [List.mem_singleton] at hl
    subst hl
    exact ⟨h.seq_no_nl, h.seq_head⟩
  have hfmt : r.fmt = render [⟨r.id, r.desc, [r.seq]⟩] := by
    unfold FastaSequence.fmt render headerLine headerContent bodyText linesText
    rcases hd : r.desc with _ | d <;> simp [linesText, render]
  have hrepOk : RepOk (FastaReader.new r.fmt) [⟨r.id, r.desc, [r.seq]⟩] := by
    rw [hfmt]
    exact repOk_new _
  have hread := read_repOk hw (by simp) hrepOk
  have htoRec : toRec ⟨r.id, r.desc, [r.seq]⟩ = r := by
    show (⟨r.id, r.desc, joinTrimEnd [r.seq]⟩ : FastaSequence) = r
    have hj : joinTrimEnd [r.seq] = r.seq := by
      show trimEnd r.seq ++ joinTrimEnd [] = r.seq
      rw [show joinTrimEnd [] = [] from rfl, List.append_nil, h.seq_trim]
    rw [hj]
  rw [htoRec] at hread
  rw [next_of_read_ok rfl hread]
  rw [if_neg (by simp [h.not_empty])]
  rfl

/-! ### Claim C5 -/

/-- C5: Every record the reader produces — the item of any `next` call
on a fresh reader over any input — round-trips through formatting:
parsing the formatted text with a fresh reader yields one record with
identical id, description and sequence (whatever line structure the
original input had). -/
theorem C5_format_reparse_roundtrip (input : List Char) (n : Nat) (r : FastaSequence)
    (h : (FastaReader.new input).itemAt n = some (.ok r)) :
    (FastaReader.new r.fmt).next = (some (.ok r), ⟨[], false, []⟩) := by
  have hc := iterate_cache_single input n
  have h2 : (((FastaReader.new input).iterate n).next).1 = some (.ok r) := h
  have hpair : ((FastaReader.new input).iterate n).next =
      (some (.ok r), (((FastaReader.new input).iterate n).next).2) := by
    rw [← h2]
  exact fmt_reparse (next_ok_producible hc hpair)

theorem C5_format_reparse_roundtrip_witness :
    (FastaReader.new ">x y\nAC\nGT\n".toList).itemAt 0 =
        some (.ok ⟨['x'], some ['y'], ['A', 'C', 'G', 'T']⟩) ∧
      (FastaReader.new
          (FastaSequence.fmt ⟨['x'], some ['y'], ['A', 'C', 'G', 'T']⟩)).next =
        (some (.ok ⟨['x'], some ['y'], ['A', 'C', 'G', 'T']⟩), ⟨[], false, []⟩) :=
  ⟨rfl, C5_format_reparse_roundtrip ">x y\nAC\nGT\n".toList 0
    ⟨['x'], some ['y'], ['A', 'C', 'G', 'T']⟩ rfl⟩

/-! ### Claim C7 -/

/-- C7 counterexample: the invariant "between produce-next calls the
cache is a single line beginning with `>` or empty" is not preserved by
a `next` call that fails: on input `ACGT\n` the state after the first
`next` call (which returns `MalformedInput`) has the offending line
`ACGT\n` in the cache — neither empty nor starting with `>`. -/
theorem C7_counterexample :
    CacheInv (FastaReader.new "ACGT\n".toList) ∧
      ((FastaReader.new "ACGT\n".toList).next).2.line_cache = "ACGT\n".toList ∧
      ¬ CacheInv ((FastaReader.new "ACGT\n".toList).next).2 := by
  refine ⟨Or.inl rfl, rfl, ?_⟩
  intro h
  rcases h with h | ⟨h, -⟩
  · exact absurd h (by decide)
  · exact absurd h (by decide)

/-- C7 (amended): the lookahead cache holds either a single line
beginning with `>` or is empty; this holds after construction and is
preserved by every `next` call that does not return an error.  (A
`next` call that returns a `MalformedInput` error leaves the offending
non-`>` line in the cache, breaking the invariant — the sticky flag
then keeps the cache from ever being read again.) -/
theorem C7_cache_invariant_no_error :
    (∀ input, CacheInv (FastaReader.new input)) ∧
      ∀ (st : FastaReader) (a : Option (Except ReadError FastaSequence))
        (st2 : FastaReader), CacheInv st → st.next = (a, st2) →
        (∀ e, a ≠ some (.error e)) → CacheInv st2 := by
  constructor
  · intro input
    exact Or.inl rfl
  · intro st a st2 hinv hn herr
    rcases hf : st.error_has_occured with _ | _
    · rcases hread : st.read with ⟨res, rec, stx⟩
      cases res with
      | error e =>
        rw [next_of_read_error hf hread] at hn
        exact absurd (congrArg Prod.fst hn).symm (herr e)
      | ok u =>
        cases u
        have hcinv : CacheInv stx := by
          cases st with
          | mk rd fl lc =>
            cases lc with
            | nil =>
              rw [read_nil_cache] at hread
              by_cases hline : (readLine rd).1 = []
              · rw [if_pos hline] at hread
                simp only [Prod.mk.injEq] at hread
                obtain ⟨-, -, h3⟩ := hread
                rw [← h3]
                exact Or.inl hline
              · rw [if_neg hline] at hread
                simp only [Prod.mk.injEq] at hread
                obtain ⟨h1, -, h3⟩ := hread
                rw [← h3]
                rcases readCore_ok_cache h1 with h4 | h4
                · exact Or.inl h4
                · exact Or.inr h4
            | cons c cs =>
              rw [read_cons_cache] at hread
              simp only [Prod.mk.injEq] at hread
              obtain ⟨h1, -, h3⟩ := hread
              rw [← h3]
              rcases readCore_ok_cache h1 with h4 | h4
              · exact Or.inl h4
              · exact Or.inr h4
        rw [next_of_read_ok hf hread] at hn
        have hst : st2 = stx := by
          rcases he : rec.isEmpty with _ | _
          · rw [if_neg (by simp [he])] at hn
            exact (congrArg Prod.snd hn).symm
          · rw [if_pos (by simp [he])] at hn
            exact (congrArg Prod.snd hn).symm
        rw [hst]
        exact hcinv
    · rw [next_of_flag hf] at hn
      have hst : st2 = st := (congrArg Prod.snd hn).symm
      rw [hst]
      exact hinv

theorem C7_cache_invariant_no_error_witness :
    CacheInv ((FastaReader.new ">a\nAC\n>b\nGG\n".toList).next).2 :=
  C7_cache_invariant_no_error.2 (FastaReader.new ">a\nAC\n>b\nGG\n".toList)
    (some (.ok ⟨['a'], none, ['A', 'C']⟩))
    ((FastaReader.new ">a\nAC\n>b\nGG\n".toList).next).2
    (Or.inl rfl) rfl (by intro e he; simp at he)

end GxFasta
